import Mathlib

/-!
# Verification of the UE-AbilitySystem data layer

Shallow embedding of the repository's ability data model:

* `FAbilityModule` with `Reset`, `IncreasePoint`, `DecreasePoint` and
  `UpdateUnlockStatus` (src/ModularSystem/AbilityData.h);
* the category containers (`FMagicalAbility` and its structurally identical
  siblings) with `ValidateAbilityByType` and the per-type mutators, modelled
  generically over the key enumeration, and the `AreMapsEqual` helper;
* the façade component `UAbilityComponent`
  (src/Source/AbilitySystem/AbilityComponent.cpp) with `Get…Ability`,
  `Is…AbilityUnlocked`, `Unlock…Ability`, `Upgrade…Ability` over
  `FAbilityData` entries (src/Source/AbilitySystem/AbilityType.h).

`TMap<K, V>` is embedded as an association list `List (K × V)`; a genuine
`TMap` has pairwise distinct keys, which theorems assume where it matters
(as `NodupKeys`).  `int8`/`int32` fields are embedded as `Int`: in every
operation below the mutation is guarded so that no overflow can occur at
the machine widths (`++Point` requires `Point < MaxPoint ≤ 127`,
`--Point` requires `Point > 0`), hence `Int` agrees with the machine
semantics on all representable states.  The `float` and `FString` fields of
`FAbilityData` are only ever stored, copied and defaulted — never computed
with — so they are embedded as `Int` (with default `0`) and `String`.
-/

namespace AbilitySystem

/-- Embeds `FAbilityModule` (src/ModularSystem/AbilityData.h): per-ability
progression record. Field defaults follow the in-class initializers. -/
structure FAbilityModule where
  bUnlocked : Bool := false
  Point : Int := 0
  MaxPoint : Int := 5
  AllocatedPoint : Int := 0
deriving DecidableEq, Repr

/-- The default-constructed record (all in-class initializers). -/
def FAbilityModule.defaultModule : FAbilityModule := {}

/-- Embeds `FAbilityModule::UpdateUnlockStatus`: `bUnlocked = (Point > 0)`. -/
def FAbilityModule.UpdateUnlockStatus (m : FAbilityModule) : FAbilityModule :=
  { m with bUnlocked := decide (0 < m.Point) }

/-- Embeds `FAbilityModule::Reset`: back to the default locked state
(`bUnlocked=false, Point=0, AllocatedPoint=0, MaxPoint=5`). -/
def FAbilityModule.Reset (_ : FAbilityModule) : FAbilityModule :=
  { bUnlocked := false, Point := 0, AllocatedPoint := 0, MaxPoint := 5 }

/-- Embeds `FAbilityModule::IncreasePoint`: guarded `++Point` followed by
`UpdateUnlockStatus`. -/
def FAbilityModule.IncreasePoint (m : FAbilityModule) : FAbilityModule :=
  if m.Point < m.MaxPoint ∧ m.Point < m.AllocatedPoint then
    ({ m with Point := m.Point + 1 }).UpdateUnlockStatus
  else m

/-- Embeds `FAbilityModule::DecreasePoint`: guarded `--Point` followed by
`UpdateUnlockStatus`. -/
def FAbilityModule.DecreasePoint (m : FAbilityModule) : FAbilityModule :=
  if 0 < m.Point then
    ({ m with Point := m.Point - 1 }).UpdateUnlockStatus
  else m

/-- The record states reachable from the default-constructed record by the
three record operations. -/
inductive ReachableRecord : FAbilityModule → Prop
  | default : ReachableRecord FAbilityModule.defaultModule
  | reset {m} : ReachableRecord m → ReachableRecord m.Reset
  | inc {m} : ReachableRecord m → ReachableRecord m.IncreasePoint
  | dec {m} : ReachableRecord m → ReachableRecord m.DecreasePoint

/-- The record invariant from the spec's data model:
`0 ≤ points ≤ min(maxPoints, allocatedPoints)` and `unlocked ⇔ points > 0`. -/
def RecordInv (m : FAbilityModule) : Prop :=
  0 ≤ m.Point ∧ m.Point ≤ min m.MaxPoint m.AllocatedPoint ∧
    (m.bUnlocked = true ↔ 0 < m.Point)

instance (m : FAbilityModule) : Decidable (RecordInv m) := by
  unfold RecordInv; infer_instance

/-- Fact: `IncreasePoint` keeps `MaxPoint` and `AllocatedPoint` untouched. -/
theorem increasePoint_frame (m : FAbilityModule) :
    m.IncreasePoint.MaxPoint = m.MaxPoint ∧
      m.IncreasePoint.AllocatedPoint = m.AllocatedPoint := by
  unfold FAbilityModule.IncreasePoint FAbilityModule.UpdateUnlockStatus
  split <;> simp

/-- Closed form for iterating `IncreasePoint` from a zero-point record:
after `k` calls the point count is `min k (min A M)` and the unlock flag
tracks its positivity. -/
theorem increasePoint_iterate (A M : Int) (hA : 0 ≤ A) (hM : 0 ≤ M)
    (k : ℕ) :
    FAbilityModule.IncreasePoint^[k]
        { bUnlocked := false, Point := 0, MaxPoint := M, AllocatedPoint := A }
      = { bUnlocked := decide (0 < min (k : Int) (min A M)),
          Point := min (k : Int) (min A M), MaxPoint := M,
          AllocatedPoint := A } := by
  induction k with
  | zero =>
      have h0 : min ((0 : ℕ) : Int) (min A M) = 0 := by omega
      simp [h0]
      exact ⟨hA, hM⟩
  | succ n ih =>
      rw [Function.iterate_succ_apply', ih]
      unfold FAbilityModule.IncreasePoint FAbilityModule.UpdateUnlockStatus
      by_cases h : min (n : Int) (min A M) < M ∧ min (n : Int) (min A M) < A
      · rw [if_pos h]
        have hc : ((n + 1 : ℕ) : Int) = (n : Int) + 1 := by push_cast; ring
        rw [hc]
        have h1 : min (n : Int) (min A M) + 1 = min ((n : Int) + 1) (min A M) := by
          omega
        rw [h1]
      · rw [if_neg h]
        have h1 : min (n : Int) (min A M) = min ((n + 1 : ℕ) : Int) (min A M) := by
          push_cast
          omega
        rw [← h1]

/-- C1: `IncreasePoint` increments `Point` by exactly 1 and recomputes the
unlock flag exactly when `Point < MaxPoint` and `Point < AllocatedPoint`;
otherwise it leaves the record completely unchanged.  Consequently, from a
fresh record with `AllocatedPoint = A`, `MaxPoint = M` and zero points,
`k` repeated calls leave `Point = min k (min A M)` — one step per call up
to the cap, no-ops afterwards — and the record is unlocked exactly when
that count is positive. -/
theorem increasePoint_spec :
    (∀ m : FAbilityModule,
      (m.Point < m.MaxPoint ∧ m.Point < m.AllocatedPoint →
        m.IncreasePoint =
          { m with Point := m.Point + 1,
                   bUnlocked := decide (0 < m.Point + 1) }) ∧
      (¬ (m.Point < m.MaxPoint ∧ m.Point < m.AllocatedPoint) →
        m.IncreasePoint = m)) ∧
    (∀ A M : Int, 0 ≤ A → 0 ≤ M → ∀ k : ℕ,
      (FAbilityModule.IncreasePoint^[k]
          { bUnlocked := false, Point := 0, MaxPoint := M,
            AllocatedPoint := A }).Point = min (k : Int) (min A M) ∧
      ((FAbilityModule.IncreasePoint^[k]
          { bUnlocked := false, Point := 0, MaxPoint := M,
            AllocatedPoint := A }).bUnlocked = true
        ↔ 0 < min (k : Int) (min A M))) := by
  constructor
  · intro m
    constructor
    · intro h
      unfold FAbilityModule.IncreasePoint FAbilityModule.UpdateUnlockStatus
      rw [if_pos h]
    · intro h
      unfold FAbilityModule.IncreasePoint
      rw [if_neg h]
  · intro A M hA hM k
    rw [increasePoint_iterate A M hA hM k]
    simp

/-- Witness for C1 at `A = 2`, `M = 5`, `k = 3`: three calls from zero
points reach `Point = 2 = min 2 5` and unlock the ability. -/
theorem increasePoint_spec_witness :
    (FAbilityModule.IncreasePoint^[3]
        { bUnlocked := false, Point := 0, MaxPoint := 5,
          AllocatedPoint := 2 }).Point = min (3 : Int) (min 2 5) ∧
      ((FAbilityModule.IncreasePoint^[3]
        { bUnlocked := false, Point := 0, MaxPoint := 5,
          AllocatedPoint := 2 }).bUnlocked = true
        ↔ 0 < min (3 : Int) (min 2 5)) :=
  increasePoint_spec.2 2 5 (by decide) (by decide) 3

/-- C2: the record invariant `0 ≤ Point ≤ min MaxPoint AllocatedPoint` and
`bUnlocked ⇔ Point > 0` holds for the default-constructed record, is
preserved by `Reset`, `IncreasePoint` and `DecreasePoint`, and hence
holds for every record reachable from the default state via these three
operations. -/
theorem record_invariant :
    RecordInv FAbilityModule.defaultModule ∧
    (∀ m : FAbilityModule, RecordInv m →
      RecordInv m.Reset ∧ RecordInv m.IncreasePoint ∧
        RecordInv m.DecreasePoint) ∧
    (∀ m : FAbilityModule, ReachableRecord m → RecordInv m) := by
  have hdef : RecordInv FAbilityModule.defaultModule := by decide
  have hstep : ∀ m : FAbilityModule, RecordInv m →
      RecordInv m.Reset ∧ RecordInv m.IncreasePoint ∧
        RecordInv m.DecreasePoint := by
    intro m hm
    obtain ⟨h0, hmin, hub⟩ := hm
    refine ⟨by unfold FAbilityModule.Reset; decide, ?_, ?_⟩
    · unfold FAbilityModule.IncreasePoint FAbilityModule.UpdateUnlockStatus
      split
      · rename_i h
        refine ⟨by simp; omega, by simp; omega, by simp⟩
      · exact ⟨h0, hmin, hub⟩
    · unfold FAbilityModule.DecreasePoint FAbilityModule.UpdateUnlockStatus
      split
      · rename_i h
        refine ⟨by simp; omega, by simp; omega, by simp⟩
      · exact ⟨h0, hmin, hub⟩
  refine ⟨hdef, hstep, ?_⟩
  intro m hm
  induction hm with
  | default => exact hdef
  | reset _ ih => exact (hstep _ ih).1
  | inc _ ih => exact (hstep _ ih).2.1
  | dec _ ih => exact (hstep _ ih).2.2

/-- Witness for C2: the invariant transfers along one `IncreasePoint` step
from a concrete invariant-satisfying record. -/
theorem record_invariant_witness :
    RecordInv (FAbilityModule.IncreasePoint
      { bUnlocked := true, Point := 1, MaxPoint := 5, AllocatedPoint := 3 }) :=
  (record_invariant.2.1
    { bUnlocked := true, Point := 1, MaxPoint := 5, AllocatedPoint := 3 }
    (by decide)).2.1

/-- C3: `DecreasePoint` from zero points is a no-op; from `Point = p > 0`
it yields `Point = p - 1`, with the unlock flag true exactly while the new
count stays positive and false exactly when it reaches zero. -/
theorem decreasePoint_spec :
    ∀ m : FAbilityModule,
      (m.Point = 0 → m.DecreasePoint = m) ∧
      (0 < m.Point →
        m.DecreasePoint.Point = m.Point - 1 ∧
        (m.DecreasePoint.bUnlocked = true ↔ 0 < m.DecreasePoint.Point) ∧
        (m.DecreasePoint.bUnlocked = false ↔ m.DecreasePoint.Point = 0)) := by
  intro m
  constructor
  · intro h
    unfold FAbilityModule.DecreasePoint
    rw [if_neg (by omega)]
  · intro h
    unfold FAbilityModule.DecreasePoint FAbilityModule.UpdateUnlockStatus
    rw [if_pos h]
    refine ⟨rfl, by simp, by simp; omega⟩

/-- Witness for C3 at a record with one point: the call drops `Point`
to `0` and relocks the ability. -/
theorem decreasePoint_spec_witness :
    (FAbilityModule.DecreasePoint
      { bUnlocked := true, Point := 1, MaxPoint := 5,
        AllocatedPoint := 1 }).Point = 1 - 1 :=
  ((decreasePoint_spec
    { bUnlocked := true, Point := 1, MaxPoint := 5, AllocatedPoint := 1 }).2
    (by decide)).1

/-- C4: `Reset` sends every record to
`bUnlocked=false, Point=0, AllocatedPoint=0, MaxPoint=5`, so it is
idempotent and has no error conditions. -/
theorem reset_spec :
    ∀ m : FAbilityModule,
      m.Reset = { bUnlocked := false, Point := 0, MaxPoint := 5,
                  AllocatedPoint := 0 } ∧
      m.Reset.Reset = m.Reset := by
  intro m
  exact ⟨rfl, rfl⟩

/-! ## Category containers (`FMagicalAbility` and its siblings)

`TMap<K, FAbilityModule>` is embedded as `List (K × FAbilityModule)`.
`TMap::Find` returns a pointer to the (unique) entry for a key; mutation
through that pointer touches exactly that entry, which `modifyEntry`
mirrors by rewriting the first entry with the given key. -/

/-- Embeds `TMap::Find`: the value stored under `key`, if any. -/
def findEntry {κ α : Type} [DecidableEq κ] :
    List (κ × α) → κ → Option α
  | [], _ => none
  | (k, v) :: rest, key => if k = key then some v else findEntry rest key

/-- Embeds `TMap::Contains`. -/
def containsKey {κ α : Type} [DecidableEq κ]
    (m : List (κ × α)) (key : κ) : Bool :=
  (findEntry m key).isSome

/-- In-place mutation of the entry `TMap::Find` hands out: apply `f` to
the first entry stored under `key`, leave the map unchanged if absent. -/
def modifyEntry {κ α : Type} [DecidableEq κ] :
    List (κ × α) → κ → (α → α) → List (κ × α)
  | [], _, _ => []
  | (k, v) :: rest, key, f =>
      if k = key then (k, f v) :: rest else (k, v) :: modifyEntry rest key f

/-- The keys of a map, in storage order. -/
def mapKeys {κ α : Type} (m : List (κ × α)) : List κ := m.map Prod.fst

/-- A genuine `TMap` stores each key at most once. -/
def NodupKeys {κ α : Type} (m : List (κ × α)) : Prop := (mapKeys m).Nodup

instance {κ α : Type} [DecidableEq κ] (m : List (κ × α)) :
    Decidable (NodupKeys m) := by
  unfold NodupKeys; infer_instance

/-- Embeds `AreMapsEqual` (src/ModularSystem/AbilityData.h): sizes equal, and
every key-value pair of the first map is found, with an equal value, in
the second. -/
def AreMapsEqual {κ α : Type} [DecidableEq κ] [DecidableEq α]
    (mapA mapB : List (κ × α)) : Bool :=
  if mapA.length ≠ mapB.length then false
  else mapA.all fun pairA =>
    match findEntry mapB pairA.1 with
    | none => false
    | some valueB => decide (valueB = pairA.2)

/-- Embeds `F…Ability::ValidateAbilityByType`: false (with a logged diagnostic)
when the map is empty or the type is not a key; true otherwise. -/
def ValidateAbilityByType {κ : Type} [DecidableEq κ]
    (m : List (κ × FAbilityModule)) (t : κ) : Bool :=
  if m.isEmpty then false
  else if ¬ containsKey m t then false
  else true

/-- Embeds `F…Ability::ResetAbilityByType`: validate, then reset the record. -/
def ResetAbilityByType {κ : Type} [DecidableEq κ]
    (m : List (κ × FAbilityModule)) (t : κ) : List (κ × FAbilityModule) :=
  if ValidateAbilityByType m t then modifyEntry m t FAbilityModule.Reset
  else m

/-- Embeds `F…Ability::IncreaseAbilityByType`: validate, then increase. -/
def IncreaseAbilityByType {κ : Type} [DecidableEq κ]
    (m : List (κ × FAbilityModule)) (t : κ) : List (κ × FAbilityModule) :=
  if ValidateAbilityByType m t then modifyEntry m t FAbilityModule.IncreasePoint
  else m

/-- Embeds `F…Ability::DecreaseAbilityByType`: validate, then decrease. -/
def DecreaseAbilityByType {κ : Type} [DecidableEq κ]
    (m : List (κ × FAbilityModule)) (t : κ) : List (κ × FAbilityModule) :=
  if ValidateAbilityByType m t then modifyEntry m t FAbilityModule.DecreasePoint
  else m

/-- Embeds `EMagicalAbilityType` (src/ModularSystem/AbilityData.h), including the
`Null` and `Max` sentinels. -/
inductive EMagicalAbilityType where
  | Null | Fireball | IceShield | LightningStrike | ArcaneBlast
  | HealingWave | Teleport | ManaSurge | FrostNova | Earthquake
  | ShadowBolt | Max
deriving DecidableEq, Repr

/-- The `FMagicalAbility` constructor's map: one default record per
enumerator strictly between `Null` and `Max`. -/
def defaultMagicalAbilities : List (EMagicalAbilityType × FAbilityModule) :=
  [(.Fireball, {}), (.IceShield, {}), (.LightningStrike, {}),
   (.ArcaneBlast, {}), (.HealingWave, {}), (.Teleport, {}),
   (.ManaSurge, {}), (.FrostNova, {}), (.Earthquake, {}),
   (.ShadowBolt, {})]

/-- Embeds `FMagicalAbility::operator==`, which delegates to `AreMapsEqual`; the other
category structs are verbatim copies over their own enumerations. -/
def magicalAbilityEq (a b : List (EMagicalAbilityType × FAbilityModule)) :
    Bool :=
  AreMapsEqual a b

section MapLemmas

variable {κ α : Type} [DecidableEq κ]

theorem findEntry_mem {m : List (κ × α)} {k : κ} {v : α}
    (h : findEntry m k = some v) : (k, v) ∈ m := by
  induction m with
  | nil => simp [findEntry] at h
  | cons p rest ih =>
      obtain ⟨k', v'⟩ := p
      unfold findEntry at h
      by_cases hk : k' = k
      · rw [if_pos hk] at h
        injection h with h
        subst hk; subst h
        exact List.mem_cons_self _ _
      · rw [if_neg hk] at h
        exact List.mem_cons_of_mem _ (ih h)

theorem findEntry_of_mem {m : List (κ × α)} {k : κ} {v : α}
    (hnd : NodupKeys m) (h : (k, v) ∈ m) : findEntry m k = some v := by
  induction m with
  | nil => cases h
  | cons p rest ih =>
      obtain ⟨k', v'⟩ := p
      rw [NodupKeys, mapKeys] at hnd
      simp only [List.map_cons, List.nodup_cons] at hnd
      rcases List.mem_cons.mp h with h1 | h1
      · injection h1 with h1 h2
        subst h1; subst h2
        unfold findEntry
        rw [if_pos rfl]
      · by_cases hk : k' = k
        · exact absurd (hk ▸ List.mem_map_of_mem Prod.fst h1) hnd.1
        · unfold findEntry
          rw [if_neg hk]
          exact ih hnd.2 h1

theorem containsKey_iff {m : List (κ × α)} {k : κ} :
    containsKey m k = true ↔ k ∈ mapKeys m := by
  induction m with
  | nil => simp [containsKey, findEntry, mapKeys]
  | cons p rest ih =>
      obtain ⟨k', v'⟩ := p
      unfold containsKey findEntry
      by_cases hk : k' = k
      · subst hk
        simp [mapKeys]
      · rw [if_neg hk]
        unfold containsKey at ih
        rw [ih]
        simp only [mapKeys, List.map_cons, List.mem_cons]
        constructor
        · exact Or.inr
        · rintro (h | h)
          · exact absurd h.symm hk
          · exact h

theorem findEntry_none_iff {m : List (κ × α)} {k : κ} :
    findEntry m k = none ↔ k ∉ mapKeys m := by
  rw [← Option.not_isSome_iff_eq_none, not_iff_not]
  exact Iff.trans (by simp [containsKey]) (containsKey_iff (m := m) (k := k))

theorem areMapsEqual_iff {α : Type} [DecidableEq α]
    {A B : List (κ × α)} (hA : NodupKeys A) (hB : NodupKeys B) :
    AreMapsEqual A B = true ↔
      ((∀ k, containsKey A k = containsKey B k) ∧
        ∀ k v w, findEntry A k = some v → findEntry B k = some w →
          v = w) := by
  constructor
  · intro h
    unfold AreMapsEqual at h
    split at h
    · exact absurd h (by simp)
    · rename_i hlen
      rw [not_not] at hlen
      have hfind : ∀ p ∈ A, findEntry B p.1 = some p.2 := by
        intro p hp
        have hall := List.all_eq_true.mp h p hp
        cases hfb : findEntry B p.1 with
        | none => rw [hfb] at hall; simp at hall
        | some w =>
            rw [hfb] at hall
            simp only [decide_eq_true_eq] at hall
            exact congrArg some hall
      have hsub : (mapKeys A).toFinset ⊆ (mapKeys B).toFinset := by
        intro k hk
        rw [List.mem_toFinset] at hk ⊢
        obtain ⟨p, hp, hpk⟩ := List.mem_map.mp hk
        have := hfind p hp
        rw [← containsKey_iff, containsKey]
        rw [hpk] at this
        rw [this]
        rfl
      have hft : (mapKeys A).toFinset = (mapKeys B).toFinset := by
        refine Finset.eq_of_subset_of_card_le hsub ?_
        rw [List.toFinset_card_of_nodup hA, List.toFinset_card_of_nodup hB]
        simp only [mapKeys, List.length_map]
        exact hlen.ge
      constructor
      · intro k
        rw [Bool.eq_iff_iff, containsKey_iff, containsKey_iff,
          ← List.mem_toFinset, ← List.mem_toFinset, hft]
      · intro k v w hv hw
        have hmem := findEntry_mem hv
        have := hfind (k, v) hmem
        rw [hw] at this
        injection this with this
        exact this.symm
  · rintro ⟨hkeys, hvals⟩
    unfold AreMapsEqual
    have hft : (mapKeys A).toFinset = (mapKeys B).toFinset := by
      refine Finset.ext fun k => ?_
      rw [List.mem_toFinset, List.mem_toFinset, ← containsKey_iff,
        ← containsKey_iff, hkeys k]
    have hlen : A.length = B.length := by
      have hcard := congrArg Finset.card hft
      rw [List.toFinset_card_of_nodup hA, List.toFinset_card_of_nodup hB]
        at hcard
      simpa only [mapKeys, List.length_map] using hcard
    rw [if_neg (by simp [hlen])]
    refine List.all_eq_true.mpr fun p hp => ?_
    have hfa : findEntry A p.1 = some p.2 := findEntry_of_mem hA hp
    have hcb : containsKey B p.1 = true := by
      rw [← hkeys p.1, containsKey, hfa]
      rfl
    cases hfb : findEntry B p.1 with
    | none => rw [containsKey, hfb] at hcb; simp at hcb
    | some w =>
        have := hvals p.1 p.2 w hfa hfb
        simp [this]

end MapLemmas

/-- C5: on an empty map, or an identifier that is not a key (the `Null`
and `Max` sentinels included), `ValidateAbilityByType` returns false and
each of the three mutators returns the category's map unchanged — no state
mutation anywhere. -/
theorem unknownId_noop :
    (∀ {κ : Type} [DecidableEq κ]
        (m : List (κ × FAbilityModule)) (t : κ),
        m.isEmpty = true ∨ containsKey m t = false →
        ValidateAbilityByType m t = false ∧
          ResetAbilityByType m t = m ∧
          IncreaseAbilityByType m t = m ∧
          DecreaseAbilityByType m t = m) ∧
    ValidateAbilityByType defaultMagicalAbilities .Null = false ∧
    ValidateAbilityByType defaultMagicalAbilities .Max = false ∧
    IncreaseAbilityByType defaultMagicalAbilities .Null
      = defaultMagicalAbilities ∧
    IncreaseAbilityByType defaultMagicalAbilities .Max
      = defaultMagicalAbilities := by
  have hgen : ∀ {κ : Type} [DecidableEq κ]
      (m : List (κ × FAbilityModule)) (t : κ),
      m.isEmpty = true ∨ containsKey m t = false →
      ValidateAbilityByType m t = false ∧
        ResetAbilityByType m t = m ∧
        IncreaseAbilityByType m t = m ∧
        DecreaseAbilityByType m t = m := by
    intro κ _ m t h
    have hv : ValidateAbilityByType m t = false := by
      unfold ValidateAbilityByType
      rcases h with h | h
      · rw [if_pos h]
      · rw [h]
        simp
    refine ⟨hv, ?_, ?_, ?_⟩
    · unfold ResetAbilityByType
      rw [hv]; simp
    · unfold IncreaseAbilityByType
      rw [hv]; simp
    · unfold DecreaseAbilityByType
      rw [hv]; simp
  exact ⟨hgen, by decide, by decide, by decide, by decide⟩

/-- Witness for C5: the `Null` sentinel is not a key of the freshly
constructed magical-category map, so validation fails and an increase
leaves the map untouched. -/
theorem unknownId_noop_witness :
    ValidateAbilityByType defaultMagicalAbilities EMagicalAbilityType.Null
        = false ∧
      IncreaseAbilityByType defaultMagicalAbilities EMagicalAbilityType.Null
        = defaultMagicalAbilities :=
  ⟨(unknownId_noop.1 defaultMagicalAbilities .Null (Or.inr (by decide))).1,
   (unknownId_noop.1 defaultMagicalAbilities .Null (Or.inr (by decide))).2.2.1⟩

/-- C6: for maps with `TMap`-style unique keys, `AreMapsEqual` (hence the
categories' `operator==`) is true exactly when the key sets coincide and
the records stored under every common key are equal field-by-field; two
freshly constructed magical categories are equal, mutating one record in
one copy breaks equality, and mutating it back restores it. -/
theorem categoryEquality_spec :
    (∀ {κ α : Type} [DecidableEq κ] [DecidableEq α]
        (A B : List (κ × α)), NodupKeys A → NodupKeys B →
        (AreMapsEqual A B = true ↔
          ((∀ k, containsKey A k = containsKey B k) ∧
            ∀ k v w, findEntry A k = some v → findEntry B k = some w →
              v = w))) ∧
    magicalAbilityEq defaultMagicalAbilities defaultMagicalAbilities
      = true ∧
    magicalAbilityEq defaultMagicalAbilities
        (modifyEntry defaultMagicalAbilities .Fireball
          (fun r => { r with AllocatedPoint := 1 })) = false ∧
    magicalAbilityEq defaultMagicalAbilities
        (modifyEntry
          (modifyEntry defaultMagicalAbilities .Fireball
            (fun r => { r with AllocatedPoint := 1 }))
          .Fireball (fun r => { r with AllocatedPoint := 0 })) = true := by
  refine ⟨?_, by decide, by decide, by decide⟩
  intro κ α _ _ A B hA hB
  exact areMapsEqual_iff hA hB

/-- Witness for C6 on concrete one-entry maps with distinct stored
records: equality fails, matching the right-hand side's failure. -/
theorem categoryEquality_spec_witness :
    AreMapsEqual
        [((EMagicalAbilityType.Fireball), ({} : FAbilityModule))]
        [(EMagicalAbilityType.Fireball,
          ({ AllocatedPoint := 1 } : FAbilityModule))] = true ↔
      ((∀ k, containsKey
          [((EMagicalAbilityType.Fireball), ({} : FAbilityModule))] k
        = containsKey
          [(EMagicalAbilityType.Fireball,
            ({ AllocatedPoint := 1 } : FAbilityModule))] k) ∧
        ∀ k v w,
          findEntry
            [((EMagicalAbilityType.Fireball), ({} : FAbilityModule))] k
            = some v →
          findEntry
            [(EMagicalAbilityType.Fireball,
              ({ AllocatedPoint := 1 } : FAbilityModule))] k
            = some w → v = w) :=
  categoryEquality_spec.1 _ _ (by decide) (by decide)

/-! ## Façade component (`UAbilityComponent`)

`FAbilityData` (src/Source/AbilitySystem/AbilityType.h) and the component
operations (src/Source/AbilitySystem/AbilityComponent.cpp).  The four
category maps (combat, support, movement, control) are verbatim copies of
one pattern over their own enumerations, so the operations are embedded
once, generically over the key enumeration.  `Cooldown` and `EnergyCost`
are `float` in the source but are only ever stored, copied and
zero-defaulted — never computed with — so they are embedded as `Int`. -/

/-- Embeds `FAbilityData`: per-ability entry of the façade component.  Field
defaults follow the in-class initializers (`Cooldown = 0`,
`EnergyCost = 0`, locked, `Level = 1`, empty description). -/
structure FAbilityData where
  Cooldown : Int := 0
  EnergyCost : Int := 0
  bUnlocked : Bool := false
  Level : Int := 1
  Description : String := ""
deriving DecidableEq, Repr

/-- Embeds `ECombatAbility` (src/Source/AbilitySystem/AbilityType.h). -/
inductive ECombatAbility where
  | None | Melee | Ranged | Charge | Overdrive
deriving DecidableEq, Repr

/-- Embeds `UAbilityComponent::Get…Ability`: the stored entry, or a
default-constructed `FAbilityData` when the id is absent
(`Found ? *Found : FAbilityData()`). -/
def GetAbilityData {κ : Type} [DecidableEq κ]
    (m : List (κ × FAbilityData)) (a : κ) : FAbilityData :=
  match findEntry m a with
  | some found => found
  | none => {}

/-- Embeds `UAbilityComponent::Is…AbilityUnlocked`: the stored unlock flag, or
`false` when the id is absent. -/
def IsAbilityUnlocked {κ : Type} [DecidableEq κ]
    (m : List (κ × FAbilityData)) (a : κ) : Bool :=
  match findEntry m a with
  | some found => found.bUnlocked
  | none => false

/-- Embeds `UAbilityComponent::ApplyUnlock`: sets `bUnlocked = true`. -/
def ApplyUnlock (a : FAbilityData) : FAbilityData :=
  { a with bUnlocked := true }

/-- Embeds `UAbilityComponent::ApplyUpgrade`: when unlocked and below the cap,
bump `Level` by one.  The cap `maxLevel` stands for
`static_cast<int32>(EAbilityLevel::Max)`; modelled from the spec: the
`EAbilityLevel` enumeration itself is not among the repository sources,
and the spec only says the level is "capped at the enumeration's maximum
level value", so that value is kept as a parameter here. -/
def ApplyUpgrade (maxLevel : Int) (a : FAbilityData) : FAbilityData :=
  if a.bUnlocked then
    if a.Level < maxLevel then { a with Level := a.Level + 1 } else a
  else a

/-- Embeds `UAbilityComponent::Unlock…Ability`: `Find`, then `ApplyUnlock`
through the returned pointer; no-op when the id is absent. -/
def UnlockAbility {κ : Type} [DecidableEq κ]
    (m : List (κ × FAbilityData)) (a : κ) : List (κ × FAbilityData) :=
  modifyEntry m a ApplyUnlock

/-- Embeds `UAbilityComponent::Upgrade…Ability`: `Find`, then `ApplyUpgrade`
through the returned pointer; no-op when the id is absent. -/
def UpgradeAbility {κ : Type} [DecidableEq κ] (maxLevel : Int)
    (m : List (κ × FAbilityData)) (a : κ) : List (κ × FAbilityData) :=
  modifyEntry m a (ApplyUpgrade maxLevel)

section ModifyLemmas

variable {κ α : Type} [DecidableEq κ]

theorem modifyEntry_of_not_found {m : List (κ × α)} {k : κ} (f : α → α)
    (h : findEntry m k = none) : modifyEntry m k f = m := by
  induction m with
  | nil => rfl
  | cons p rest ih =>
      obtain ⟨k', v'⟩ := p
      unfold findEntry at h
      unfold modifyEntry
      by_cases hk : k' = k
      · rw [if_pos hk] at h
        cases h
      · rw [if_neg hk] at h
        rw [if_neg hk, ih h]

theorem findEntry_modifyEntry_self (m : List (κ × α)) (k : κ) (f : α → α) :
    findEntry (modifyEntry m k f) k = (findEntry m k).map f := by
  induction m with
  | nil => rfl
  | cons p rest ih =>
      obtain ⟨k', v'⟩ := p
      unfold modifyEntry
      by_cases hk : k' = k
      · rw [if_pos hk]
        unfold findEntry
        rw [if_pos hk, if_pos hk]
        rfl
      · rw [if_neg hk]
        unfold findEntry
        rw [if_neg hk, if_neg hk, ih]

theorem findEntry_modifyEntry_other (m : List (κ × α)) {k b : κ}
    (f : α → α) (hb : b ≠ k) :
    findEntry (modifyEntry m k f) b = findEntry m b := by
  induction m with
  | nil => rfl
  | cons p rest ih =>
      obtain ⟨k', v'⟩ := p
      unfold modifyEntry
      by_cases hk : k' = k
      · rw [if_pos hk]
        unfold findEntry
        rw [if_neg (hk ▸ fun h => hb h.symm),
          if_neg (hk ▸ fun h => hb h.symm)]
      · rw [if_neg hk]
        unfold findEntry
        by_cases hkb : k' = b
        · rw [if_pos hkb, if_pos hkb]
        · rw [if_neg hkb, if_neg hkb, ih]

end ModifyLemmas

/-- C7: `Upgrade…Ability` bumps the stored entry's level by exactly one
iff the id is present, the entry is unlocked, and its level is below the
enumeration's maximum level value; otherwise it changes nothing.  After
an unlock, a first upgrade of a level-1 entry yields level 2, and an
unlocked entry already at the maximum level is left unchanged. -/
theorem upgrade_spec :
    ∀ {κ : Type} [DecidableEq κ] (maxLevel : Int)
      (m : List (κ × FAbilityData)) (a : κ),
      (findEntry m a = none → UpgradeAbility maxLevel m a = m) ∧
      (∀ v, findEntry m a = some v →
        findEntry (UpgradeAbility maxLevel m a) a =
          some (if v.bUnlocked = true ∧ v.Level < maxLevel
            then { v with Level := v.Level + 1 } else v)) ∧
      (∀ v, findEntry m a = some v → v.Level = 1 → 1 < maxLevel →
        findEntry (UpgradeAbility maxLevel (UnlockAbility m a) a) a =
          some { v with bUnlocked := true, Level := 2 }) ∧
      (∀ v : FAbilityData, v.bUnlocked = true → v.Level = maxLevel →
        ApplyUpgrade maxLevel v = v) := by
  intro κ _ maxLevel m a
  refine ⟨fun h => modifyEntry_of_not_found _ h, ?_, ?_, ?_⟩
  · intro v hv
    unfold UpgradeAbility
    rw [findEntry_modifyEntry_self, hv]
    simp only [Option.map_some']
    congr 1
    unfold ApplyUpgrade
    cases hu : v.bUnlocked
    · simp [hu]
    · simp [hu]
  · intro v hv hl hmax
    unfold UpgradeAbility UnlockAbility
    rw [findEntry_modifyEntry_self, findEntry_modifyEntry_self, hv]
    simp only [Option.map_some']
    congr 1
    unfold ApplyUnlock ApplyUpgrade
    simp [hl, hmax]
  · intro v hu hl
    unfold ApplyUpgrade
    simp [hu, hl]

/-- Witness for C7: with cap 3, upgrading a present, unlocked, level-1
combat entry stores level 2. -/
theorem upgrade_spec_witness :
    findEntry (UpgradeAbility 3
        [(ECombatAbility.Melee, ({ bUnlocked := true } : FAbilityData))]
        ECombatAbility.Melee) ECombatAbility.Melee =
      some (if ({ bUnlocked := true } : FAbilityData).bUnlocked = true ∧
            ({ bUnlocked := true } : FAbilityData).Level < 3
        then { ({ bUnlocked := true } : FAbilityData) with
                 Level := ({ bUnlocked := true } : FAbilityData).Level + 1 }
        else { bUnlocked := true }) :=
  (upgrade_spec 3 _ ECombatAbility.Melee).2.1 _ (by decide)

/-- C8: the façade reads are total and pure — `Get…Ability` returns the
stored entry when present and a default entry (cooldown 0, energy cost 0,
locked, level 1, empty description) when absent;
`Is…AbilityUnlocked` returns the stored flag when present and `false`
when absent. -/
theorem facadeRead_spec :
    ∀ {κ : Type} [DecidableEq κ] (m : List (κ × FAbilityData)) (a : κ),
      (∀ v, findEntry m a = some v →
        GetAbilityData m a = v ∧ IsAbilityUnlocked m a = v.bUnlocked) ∧
      (findEntry m a = none →
        GetAbilityData m a =
          { Cooldown := 0, EnergyCost := 0, bUnlocked := false,
            Level := 1, Description := "" } ∧
          IsAbilityUnlocked m a = false) := by
  intro κ _ m a
  constructor
  · intro v hv
    unfold GetAbilityData IsAbilityUnlocked
    rw [hv]
    exact ⟨rfl, rfl⟩
  · intro hv
    unfold GetAbilityData IsAbilityUnlocked
    rw [hv]
    exact ⟨rfl, rfl⟩

/-- Witness for C8 on the empty combat map at the default enumeration
value `None`: a default entry and a `false` unlock flag come back. -/
theorem facadeRead_spec_witness :
    GetAbilityData ([] : List (ECombatAbility × FAbilityData))
        ECombatAbility.None =
      { Cooldown := 0, EnergyCost := 0, bUnlocked := false, Level := 1,
        Description := "" } ∧
      IsAbilityUnlocked ([] : List (ECombatAbility × FAbilityData))
        ECombatAbility.None = false :=
  (facadeRead_spec [] ECombatAbility.None).2 rfl

/-- C9: `Unlock…Ability` on a present id sets that entry's unlock flag to
true, leaving its other fields and every other entry unchanged; on an
absent id it changes nothing. -/
theorem unlock_spec :
    ∀ {κ : Type} [DecidableEq κ] (m : List (κ × FAbilityData)) (a : κ),
      (findEntry m a = none → UnlockAbility m a = m) ∧
      (∀ v, findEntry m a = some v →
        findEntry (UnlockAbility m a) a =
          some { v with bUnlocked := true } ∧
        ∀ b, b ≠ a → findEntry (UnlockAbility m a) b = findEntry m b) := by
  intro κ _ m a
  constructor
  · exact fun h => modifyEntry_of_not_found _ h
  · intro v hv
    constructor
    · unfold UnlockAbility
      rw [findEntry_modifyEntry_self, hv]
      rfl
    · intro b hb
      exact findEntry_modifyEntry_other m ApplyUnlock hb

/-- Witness for C9: unlocking the present `Melee` entry of a one-entry
combat map stores the same entry with the flag raised. -/
theorem unlock_spec_witness :
    findEntry (UnlockAbility
        [(ECombatAbility.Melee, ({} : FAbilityData))] ECombatAbility.Melee)
      ECombatAbility.Melee =
      some { ({} : FAbilityData) with bUnlocked := true } :=
  ((unlock_spec [(ECombatAbility.Melee, {})] ECombatAbility.Melee).2 {}
    (by decide)).1

/-- C10: `Upgrade…Ability` changes at most the `Level` field of the
targeted entry — the entry's cooldown, energy cost, unlock flag and
description, and every entry under any other identifier, are untouched;
an absent id changes nothing. -/
theorem upgradeFrame_spec :
    ∀ {κ : Type} [DecidableEq κ] (maxLevel : Int)
      (m : List (κ × FAbilityData)) (a : κ),
      (findEntry m a = none → UpgradeAbility maxLevel m a = m) ∧
      (∀ v, findEntry m a = some v →
        ∃ l : Int, findEntry (UpgradeAbility maxLevel m a) a =
          some { v with Level := l }) ∧
      (∀ b, b ≠ a →
        findEntry (UpgradeAbility maxLevel m a) b = findEntry m b) := by
  intro κ _ maxLevel m a
  refine ⟨fun h => modifyEntry_of_not_found _ h, ?_, ?_⟩
  · intro v hv
    unfold UpgradeAbility
    rw [findEntry_modifyEntry_self, hv]
    by_cases hu : v.bUnlocked = true
    · by_cases hl : v.Level < maxLevel
      · exact ⟨v.Level + 1, by
          simp only [Option.map_some']
          congr 1
          unfold ApplyUpgrade
          rw [if_pos hu, if_pos hl]⟩
      · exact ⟨v.Level, by
          simp only [Option.map_some']
          congr 1
          unfold ApplyUpgrade
          rw [if_pos hu, if_neg hl]⟩
    · exact ⟨v.Level, by
        simp only [Option.map_some']
        congr 1
        unfold ApplyUpgrade
        rw [if_neg hu]⟩
  · intro b hb
    exact findEntry_modifyEntry_other m (ApplyUpgrade maxLevel) hb

/-- Witness for C10: upgrading the locked `Melee` entry of a one-entry
combat map stores it back with some level — all other fields intact. -/
theorem upgradeFrame_spec_witness :
    ∃ l : Int, findEntry (UpgradeAbility 3
        [(ECombatAbility.Melee, ({} : FAbilityData))] ECombatAbility.Melee)
      ECombatAbility.Melee =
      some { ({} : FAbilityData) with Level := l } :=
  (upgradeFrame_spec 3 [(ECombatAbility.Melee, {})]
    ECombatAbility.Melee).2.1 {} (by decide)

end AbilitySystem
